import Mathlib

/-!
Verification of the SummarifyAI summarization core (`pdf_summarizer.py`).

Embedding conventions:
* Python strings are modelled as `List Char` (ASCII fragment; the regexes in the
  source, `[a-zA-Z]`, `[A-Z]`, only match ASCII anyway).
* The tokenizer is embedded in its simple (regex) mode, i.e. the in-repository
  fallback path that runs when the optional linguistic backend is unavailable;
  the backend itself is external code.
* Python floats appear only in threshold comparisons and in scores.  Scores are
  modelled as exact rationals: the comparisons they feed never change outcome
  under double rounding for the value ranges the program produces.  The three
  threshold comparisons `i < n*0.3`, `i > n*0.7`, `t < target*0.8` are modelled
  bit-exactly: the IEEE-754 double product is computed by integer
  round-to-nearest-even (`roundEven53`), because `i > n*0.7` observably
  deviates from the exact rational comparison (e.g. `90*0.7 = 62.999...`).
* Exceptions are modelled with `Except`; the soft-fail wrapper of both
  summarizers is `runSummarizer`.
-/

namespace Summarify

/-! ### Character classes (Python `\s`, `\w`, `[A-Z]`, `[.!?]`) -/

/-- Python `\s` (ASCII fragment). -/
def isWs (c : Char) : Bool := c.isWhitespace

/-- Python `\w` (ASCII fragment): alphanumeric or underscore. -/
def isWordChar (c : Char) : Bool := c.isAlphanum || c == '_'

/-- A character kept by the second substitution of `clean_text`:
`[^\w\s.,!?;:\-()]` is removed, so kept = `\w`, `\s`, or listed punctuation. -/
def isAllowed (c : Char) : Bool :=
  isWordChar c || isWs c ||
    (c == '.' || c == ',' || c == '!' || c == '?' || c == ';' || c == ':' ||
     c == '-' || c == '(' || c == ')')

/-- Sentence-terminal characters of the split pattern `(?<=[.!?])`. -/
def isTermChar (c : Char) : Bool := c == '.' || c == '!' || c == '?'

/-- Python `[A-Z]`. -/
def isUpperAZ (c : Char) : Bool := decide ('A' ≤ c) && decide (c ≤ 'Z')

/-- Python `str.lower()` (ASCII fragment). -/
def pyLower (l : List Char) : List Char := l.map Char.toLower

/-! ### `clean_text` (lines 126-132): collapse whitespace, strip disallowed
characters, trim. -/

/-- `re.sub(r'\s+', ' ', text)`: every maximal whitespace run becomes one
space.  The flag records whether the previous character was whitespace. -/
def collapseAux : Bool → List Char → List Char
  | _, [] => []
  | prevWs, c :: cs =>
    if isWs c then
      (if prevWs then collapseAux true cs else ' ' :: collapseAux true cs)
    else c :: collapseAux false cs

/-- The whitespace-collapsing pass of `clean_text`. -/
def collapseWs (l : List Char) : List Char := collapseAux false l

/-- Drop trailing whitespace (the right half of Python `str.strip()`). -/
def dropEndWs (l : List Char) : List Char := (l.reverse.dropWhile isWs).reverse

/-- Python `str.strip()`. -/
def pyStrip (l : List Char) : List Char := dropEndWs (l.dropWhile isWs)

/-- `clean_text` (lines 126-132): collapse whitespace runs to a single space,
remove characters outside `\w\s.,!?;:\-()`, trim. -/
def clean_text (l : List Char) : List Char :=
  pyStrip ((collapseWs l).filter isAllowed)

/-! ### Python `str.split()` (no argument) and `" ".join` -/

/-- Emit the accumulated (reversed) word, if nonempty. -/
def flushAcc (accRev : List Char) : List (List Char) :=
  if accRev.isEmpty then [] else [accRev.reverse]

/-- Worker for `str.split()`: words are maximal runs of non-whitespace. -/
def splitWsAux : List Char → List Char → List (List Char)
  | accRev, [] => flushAcc accRev
  | accRev, c :: cs =>
    if isWs c then flushAcc accRev ++ splitWsAux [] cs
    else splitWsAux (c :: accRev) cs

/-- Python `str.split()` with no argument. -/
def splitWs (l : List Char) : List (List Char) := splitWsAux [] l

/-- Python `" ".join(parts)`. -/
def joinSp : List (List Char) → List Char
  | [] => []
  | [x] => x
  | x :: y :: ys => x ++ ' ' :: joinSp (y :: ys)

/-! ### `simple_sent_tokenize` (lines 52-56)

The split pattern (lookbehind `[.!?]`, then `\s+`, then lookahead `[A-Z]`) splits the text at every maximal
whitespace run whose preceding character is `.`, `!` or `?` and whose
following character is an ASCII uppercase letter (no other position can start
a match: the lookbehind needs a non-whitespace terminator, and `\s+` cannot
satisfy the lookahead on a shorter match since the next char would be
whitespace).  The state machine keeps the current fragment, the pending
whitespace run, and whether the last non-whitespace char was a terminator. -/

def sentSplitAux : Bool → List Char → List Char → List Char → List (List Char)
  | _, accRev, pendRev, [] => [(pendRev ++ accRev).reverse]
  | term, accRev, pendRev, c :: cs =>
    if isWs c then sentSplitAux term accRev (c :: pendRev) cs
    else if term && !pendRev.isEmpty && isUpperAZ c then
      accRev.reverse :: sentSplitAux (isTermChar c) [c] [] cs
    else sentSplitAux (isTermChar c) (c :: (pendRev ++ accRev)) [] cs

/-- The raw `re.split` of `simple_sent_tokenize`. -/
def pySentSplit (l : List Char) : List (List Char) := sentSplitAux false [] [] l

/-- `simple_sent_tokenize` (lines 52-56): split, strip each fragment, keep
those longer than 10 characters (which subsumes nonemptiness). -/
def simple_sent_tokenize (l : List Char) : List (List Char) :=
  ((pySentSplit l).map pyStrip).filter (fun s => decide (10 < s.length))

/-! ### `simple_word_tokenize` (lines 58-61)

The findall pattern (`[a-zA-Z]` repeated at least twice, between word
boundaries, over the lowercased text): a match is exactly a maximal
run of ASCII letters of length ≥ 2 whose neighbours (if any) are not word
characters, i.e. not digits or underscores (they cannot be letters, by
maximality; `\b` fails inside a run, and backtracking a greedy run always
faces a letter).  The flag carries whether the character preceding the
current run is a word character. -/

def closeRun (prevW : Bool) (runRev : List Char) (afterW : Bool) :
    List (List Char) :=
  if decide (2 ≤ runRev.length) && !prevW && !afterW then [runRev.reverse]
  else []

def wordTokAux : Bool → List Char → List Char → List (List Char)
  | prevW, runRev, [] => closeRun prevW runRev false
  | prevW, runRev, c :: cs =>
    if c.isAlpha then wordTokAux prevW (c :: runRev) cs
    else closeRun prevW runRev (isWordChar c) ++ wordTokAux (isWordChar c) [] cs

/-- `simple_word_tokenize` (lines 58-61). -/
def simple_word_tokenize (l : List Char) : List (List Char) :=
  wordTokAux false [] (pyLower l)

/-- Modelled from the spec: "match maximal runs of 2+ alphabetic characters,
case-folded to lowercase" — the claimed characterization of
`simple_word_tokenize`, with no word-boundary side conditions.  Used to
compare the implementation against the words of the spec. -/
def maxRunsAux : List Char → List Char → List (List Char)
  | runRev, [] => if decide (2 ≤ runRev.length) then [runRev.reverse] else []
  | runRev, c :: cs =>
    if c.isAlpha then maxRunsAux (c :: runRev) cs
    else (if decide (2 ≤ runRev.length) then [runRev.reverse] else []) ++
      maxRunsAux [] cs

/-- All maximal alphabetic runs of length ≥ 2 of the lowercased text. -/
def maxAlphaRuns (l : List Char) : List (List Char) :=
  maxRunsAux [] (pyLower l)

/-! ### Stopwords (lines 64-77, 100-108) -/

/-- `BASIC_STOPWORDS` (lines 64-77). -/
def BASIC_STOPWORDS : List (List Char) :=
  (["i", "me", "my", "myself", "we", "our", "ours", "ourselves", "you",
    "your", "yours", "yourself", "yourselves", "he", "him", "his", "himself",
    "she", "her", "hers", "herself", "it", "its", "itself", "they", "them",
    "their", "theirs", "themselves", "what", "which", "who", "whom", "this",
    "that", "these", "those", "am", "is", "are", "was", "were", "be", "been",
    "being", "have", "has", "had", "having", "do", "does", "did", "doing",
    "a", "an", "the", "and", "but", "if", "or", "because", "as", "until",
    "while", "of", "at", "by", "for", "with", "through", "during", "before",
    "after", "above", "below", "up", "down", "in", "out", "on", "off",
    "over", "under", "again", "further", "then", "once", "here", "there",
    "when", "where", "why", "how", "all", "any", "both", "each", "few",
    "more", "most", "other", "some", "such", "no", "nor", "not", "only",
    "own", "same", "so", "than", "too", "very", "can", "will", "just",
    "should", "now", "could", "would", "may", "might", "must", "shall"]).map
    String.data

/-- `get_stopwords` (lines 100-108).  `backend = some ws` models the NLTK
corpus lookup succeeding with word set `ws`; `backend = none` models NLTK
being unavailable or the lookup raising — in either of those cases the
`except` branch (or the `else` branch) yields `BASIC_STOPWORDS`. -/
def get_stopwords (backend : Option (List (List Char))) : List (List Char) :=
  match backend with
  | some ws => ws
  | none => BASIC_STOPWORDS

/-! ### Bit-exact model of the three float threshold comparisons

The source compares integers against `len(sentences)*0.3`, `len(sentences)*0.7`
and `target_length*0.8`.  Each product is an IEEE-754 double: the integer is
converted exactly (it is far below `2^53`) and the product of the two doubles
is rounded to 53 significant bits, ties to even.  Since the double constants
are dyadic rationals (`0.3 = M3/2^54`, `0.7 = M7/2^53`, `0.8 = M8/2^53`), the
value of the product is `roundEven53 (M * n)` at the same power-of-two scale, where
`roundEven53` rounds a natural number to 53 significant bits.  This model was
checked to agree with the Python floats on an exhaustive sweep of small `n`;
the `2^128` fuel below covers every product of interest. -/

/-- Number of binary digits of `n`, correct for `n < 2^fuel` (fueled to keep
the definition structurally recursive). -/
def bitLenF : Nat → Nat → Nat
  | 0, _ => 0
  | fuel + 1, n => if n = 0 then 0 else bitLenF fuel (n / 2) + 1

/-- Round a natural number to 53 significant binary digits, ties to even. -/
def roundEven53 (P : Nat) : Nat :=
  let b := bitLenF 128 P
  if b ≤ 53 then P
  else
    let s := b - 53
    let m := P / 2 ^ s
    let r := P % 2 ^ s
    let half := 2 ^ (s - 1)
    if half < r then (m + 1) * 2 ^ s
    else if r < half then m * 2 ^ s
    else (if m % 2 = 0 then m else m + 1) * 2 ^ s

/-- Mantissa of the double nearest `0.3`, scaled by `2^54`. -/
def M3 : Nat := 5404319552844595

/-- Mantissa of the double nearest `0.7`, scaled by `2^53`. -/
def M7 : Nat := 6305039478318694

/-- Mantissa of the double nearest `0.8`, scaled by `2^53`. -/
def M8 : Nat := 7205759403792794

/-- The Python comparison `i < n * 0.3` (line 174), bit-exact. -/
def lt03F (i n : Nat) : Bool := decide (i * 2 ^ 54 < roundEven53 (M3 * n))

/-- The Python comparison `i > n * 0.7` (line 176), bit-exact.  This one
genuinely deviates from the exact comparison `10*i > 7*n`: for instance
`90 * 0.7` rounds below `63`, so index `63` passes the check. -/
def gt07F (i n : Nat) : Bool := decide (roundEven53 (M7 * n) < i * 2 ^ 53)

/-- The Python comparison `t < target * 0.8` (line 244), bit-exact. -/
def lt08F (t target : Nat) : Bool :=
  decide (t * 2 ^ 53 < roundEven53 (M8 * target))

/-! ### The extractive summarizer (`extractive_summarize`, lines 134-193) -/

/-- The word filter of both frequency tables (lines 154, 212):
`word not in stop_words and len(word) > 2 and word.isalnum()`. -/
def qualifies (stop : List (List Char)) (w : List Char) : Bool :=
  !(stop.contains w) && decide (2 < w.length) && (!w.isEmpty && w.all Char.isAlphanum)

/-- `word_freq` of `extractive_summarize` (lines 150-155): occurrences of `w`
among the qualifying word tokens of all sentences (dict counting). -/
def wordFreq (stop : List (List Char)) (sentences : List (List Char))
    (w : List Char) : Nat :=
  (((sentences.map simple_word_tokenize).flatten).filter (qualifies stop)).count w

/-- Number of words of a sentence that are present in `word_freq`
(the `word_count` of lines 162-167). -/
def contribCount (freq : List Char → Nat) (s : List Char) : Nat :=
  ((simple_word_tokenize s).filter (fun w => decide (0 < freq w))).length

/-- The positional multiplier of lines 173-177 (`if`/`elif`, so the first
branch shadows the second): the float values `1.2` and `1.1` are written as
exact rationals. -/
def positionBonus (i n : Nat) : ℚ :=
  if lt03F i n then 6 / 5 else if gt07F i n then 11 / 10 else 1

/-- The score a sentence contributes to `sentence_scores` (lines 158-179):
`none` when it has no word in `word_freq` (such sentences are never ranked),
otherwise the average frequency of its counted words times the positional
multiplier. -/
def scoreOf (freq : List Char → Nat) (i n : Nat) (s : List Char) : Option ℚ :=
  if contribCount freq s = 0 then none
  else
    some (((((simple_word_tokenize s).filter (fun w => decide (0 < freq w))).map
        (fun w => (freq w : ℚ))).sum / (contribCount freq s : ℚ) *
      positionBonus i n))

/-- Python dict assignment `d[k] = v`: overwrite in place, else append. -/
def upsert (k : List Char) (v : ℚ) : List (List Char × ℚ) → List (List Char × ℚ)
  | [] => [(k, v)]
  | (k', v') :: rest =>
    if k' = k then (k', v) :: rest else (k', v') :: upsert k v rest

/-- Builds `sentence_scores` (lines 158-179): a dict keyed by sentence text,
in insertion order, skipping sentences with `word_count == 0`. -/
def scoresAux (freq : List Char → Nat) (n : Nat) :
    Nat → List (List Char) → List (List Char × ℚ) → List (List Char × ℚ)
  | _, [], dict => dict
  | i, s :: ss, dict =>
    scoresAux freq n (i + 1) ss
      (Option.elim (scoreOf freq i n s) dict (fun q => upsert s q dict))

/-- Stable insertion for a descending sort: `x` goes before the first element
it strictly beats, and before equal elements only if it preceded them (`lt x y`
means `x` ranks strictly below `y`). -/
def insDescBy {α : Type} (lt : α → α → Bool) (x : α) : List α → List α
  | [] => [x]
  | y :: ys => if lt x y then y :: insDescBy lt x ys else x :: y :: ys

/-- Stable descending insertion sort; models both
`sorted(..., reverse=True)` (hence `heapq.nlargest`) and
`list.sort(reverse=True)`. -/
def sortDescBy {α : Type} (lt : α → α → Bool) : List α → List α
  | [] => []
  | x :: xs => insDescBy lt x (sortDescBy lt xs)

/-- The full `sentence_scores` dict of lines 158-179. -/
def sentenceDict (stop : List (List Char)) (sentences : List (List Char)) :
    List (List Char × ℚ) :=
  scoresAux (wordFreq stop sentences) sentences.length 0 sentences []

/-- `heapq.nlargest(numSentences, sentence_scores, key=sentence_scores.get)`
(line 182): the keys of the `numSentences` highest-scoring entries, obtained
by a stable descending sort on the score. -/
def topSentences (numSentences : Nat) (dict : List (List Char × ℚ)) :
    List (List Char) :=
  ((sortDescBy (fun a b => decide (a.2 < b.2)) dict).take numSentences).map
    Prod.fst

/-- The sentence texts selected by `extractive_summarize` when it does not
short-circuit, and in its final document order (lines 140-190): score the
sentences, take the `numSentences` highest-scoring dict keys, and re-emit
the sentence list filtered by membership in that key set. -/
def extractiveSelected (text : List Char) (numSentences : Nat) :
    List (List Char) :=
  let sentences := simple_sent_tokenize (clean_text text)
  if sentences.length ≤ numSentences then sentences
  else
    let top := topSentences numSentences
      (sentenceDict (get_stopwords none) sentences)
    sentences.filter (fun s => top.contains s)

/-- The `"Error during summarization: "` message head (lines 193, 258). -/
def errText : List Char := ("Error during summarization: ").data

/-- The `try`/`except` wrapper shared by both summarizers (lines 136-193 and
197-258): a successful body yields its string; a raised exception `msg` is
caught and converted into the soft-fail string.  No exception escapes. -/
def runSummarizer : Except (List Char) (List Char) → List Char
  | Except.ok s => s
  | Except.error msg => errText ++ msg

/-- `extractive_summarize` (lines 134-193), in simple-tokenizer mode; the body
of the model is total, so it is wrapped as a success. -/
def extractive_summarize (text : List Char) (numSentences : Nat) : List Char :=
  runSummarizer (Except.ok (joinSp (extractiveSelected text numSentences)))

/-! ### The budgeted summarizer (`simple_abstractive_summarize`,
lines 195-258) -/

/-- Python `Counter` update: increment in place, else append with count 1. -/
def upsertCount (w : List Char) :
    List (List Char × Nat) → List (List Char × Nat)
  | [] => [(w, 1)]
  | (w', c) :: rest =>
    if w' = w then (w', c + 1) :: rest else (w', c) :: upsertCount w rest

/-- Left fold of `upsertCount`, so keys appear in first-seen order. -/
def wordCountsAux : List (List Char) → List (List Char × Nat) → List (List Char × Nat)
  | [], acc => acc
  | w :: ws, acc => wordCountsAux ws (upsertCount w acc)

/-- `Counter(filtered_words)` (line 213): counts in first-seen key order. -/
def wordCounts (ws : List (List Char)) : List (List Char × Nat) :=
  wordCountsAux ws []

/-- `Counter.most_common(n)` (line 216): the `n` keys of highest count,
ties kept in insertion order (`heapq.nlargest` over the items). -/
def mostCommon (n : Nat) (counts : List (List Char × Nat)) :
    List (List Char) :=
  ((sortDescBy (fun a b => decide (a.2 < b.2)) counts).take n).map Prod.fst

/-- Python `set(...)` of a word list, as the list of first occurrences (only
its cardinality matters here). -/
def firstDedup : List (List Char) → List (List Char)
  | [] => []
  | w :: ws =>
    if (firstDedup ws).contains w then firstDedup ws else w :: firstDedup ws

/-- Python string `<` (code-point lexicographic). -/
def strLt : List Char → List Char → Bool
  | [], [] => false
  | [], _ :: _ => true
  | _ :: _, [] => false
  | c :: cs, d :: ds =>
    if c < d then true else if d < c then false else strLt cs ds

/-- Python `<` on the `(normalized_score, sentence, sentence_length)` tuples
sorted at line 234 (lexicographic). -/
def tupLt (a b : ℚ × List Char × Nat) : Bool :=
  if a.1 < b.1 then true
  else if b.1 < a.1 then false
  else if strLt a.2.1 b.2.1 then true
  else if strLt b.2.1 a.2.1 then false
  else decide (a.2.2 < b.2.2)

/-- The truncated tail sentence of lines 248-249:
`" ".join(sentence.split()[:remaining-1]) + "..."`. -/
def truncateSentence (s : List Char) (remaining : Nat) : List Char :=
  joinSp ((splitWs s).take (remaining - 1)) ++ ("...").data

/-- The greedy accumulation loop of lines 240-253 over the sorted
`(score, sentence, length)` list: append while the budget allows; on overflow,
if the total is below 80% of the target (bit-exact float check) and at least
10 words remain, append a truncated tail and stop; if the total is below 80%
but fewer than 10 words remain, skip this sentence and keep scanning;
otherwise stop. -/
def buildParts (target : Nat) : Nat → List (ℚ × List Char × Nat) → List (List Char)
  | _, [] => []
  | total, (_, s, len) :: rest =>
    if total + len ≤ target then s :: buildParts target (total + len) rest
    else if lt08F total target then
      (if 10 ≤ target - total then [truncateSentence s (target - total)]
       else buildParts target total rest)
    else []

/-- The "important word set" of lines 209-216: the 30 most frequent
qualifying word tokens of the cleaned text. -/
def importantWords (stop : List (List Char)) (t : List Char) :
    List (List Char) :=
  mostCommon 30 (wordCounts ((simple_word_tokenize t).filter (qualifies stop)))

/-- `scored_sentences` (lines 219-231): for each sentence whose whitespace
word count lies in `[5, 50]` and whose distinct word tokens meet the
important word set, the tuple `(importance / length, sentence, length)`. -/
def scoredTuples (important : List (List Char)) (sentences : List (List Char)) :
    List (ℚ × List Char × Nat) :=
  sentences.filterMap (fun s =>
    if 5 ≤ (splitWs s).length ∧ (splitWs s).length ≤ 50 ∧
        0 < ((firstDedup (simple_word_tokenize s)).filter
          (fun w => important.contains w)).length then
      some (((((firstDedup (simple_word_tokenize s)).filter
            (fun w => important.contains w)).length : ℚ) /
          ((splitWs s).length : ℚ), s, (splitWs s).length))
    else none)

/-- The body of `simple_abstractive_summarize` (lines 198-255): clean, short-
circuit when the document already fits the budget, otherwise score sentences
by density of the 30 most frequent qualifying words and greedily accumulate
them in descending tuple order. -/
def abstractiveBody (text : List Char) (target : Nat) : List Char :=
  let t := clean_text text
  if (splitWs t).length ≤ target then t
  else
    joinSp (buildParts target 0 (sortDescBy tupLt
      (scoredTuples (importantWords (get_stopwords none) t)
        (simple_sent_tokenize t))))

/-- `simple_abstractive_summarize` (lines 195-258); the body of the model is
total, so it is wrapped as a success. -/
def simple_abstractive_summarize (text : List Char) (target : Nat) : List Char :=
  runSummarizer (Except.ok (abstractiveBody text target))

/-! ## Analysis of the bit-exact float comparisons

`roundEven53` is the rounding of the exact product to 53 significant bits.
The lemmas below show that the comparisons against `n*0.3` and `target*0.8`
coincide with the exact rational comparisons (`10*i < 3*n`, `5*t < 4*target`)
for every argument up to `2^50`, while the comparison against `n*0.7` is only
one-sided: it holds whenever `10*i > 7*n` but also at certain exact boundary
points (`roundEven53` can round `n*0.7` below `7*n/10`). -/

theorem bitLenF_zero (fuel : Nat) : bitLenF fuel 0 = 0 := by
  cases fuel <;> simp [bitLenF]

theorem bitLenF_spec (fuel : Nat) : ∀ n : Nat, n < 2 ^ fuel → 1 ≤ n →
    2 ^ (bitLenF fuel n - 1) ≤ n ∧ n < 2 ^ bitLenF fuel n ∧
      1 ≤ bitLenF fuel n := by
  induction fuel with
  | zero => intro n h h1; omega
  | succ f ih =>
    intro n h h1
    rw [bitLenF, if_neg (by omega)]
    by_cases h2 : n = 1
    · subst h2
      simp [bitLenF_zero]
    · have hdiv : n / 2 < 2 ^ f := by
        have : (2:Nat) ^ (f + 1) = 2 * 2 ^ f := by rw [pow_succ]; ring
        omega
      have hdiv1 : 1 ≤ n / 2 := by omega
      obtain ⟨ha, hb, hc⟩ := ih (n / 2) hdiv hdiv1
      set u := bitLenF f (n / 2) with hu
      have e1 : 2 ^ u = 2 * 2 ^ (u - 1) := by
        have h3 : u = u - 1 + 1 := by omega
        calc (2:Nat) ^ u = 2 ^ (u - 1 + 1) := by rw [← h3]
          _ = 2 * 2 ^ (u - 1) := by rw [pow_succ]; ring
      have e2 : 2 ^ (u + 1) = 2 * 2 ^ u := by rw [pow_succ]; ring
      refine ⟨?_, ?_, by omega⟩
      · have h4 : u + 1 - 1 = u := by omega
        rw [h4]
        omega
      · omega

theorem pow_bounds_unique (a b P : Nat) (h1 : 2 ^ (a - 1) ≤ P) (h2 : P < 2 ^ a)
    (h3 : 2 ^ (b - 1) ≤ P) (h4 : P < 2 ^ b) (hb : 1 ≤ b) : a = b := by
  by_contra hne
  rcases Nat.lt_or_ge a b with hab | hab
  · have : (2:Nat) ^ a ≤ 2 ^ (b - 1) := Nat.pow_le_pow_right (by norm_num) (by omega)
    omega
  · have : (2:Nat) ^ b ≤ 2 ^ (a - 1) := Nat.pow_le_pow_right (by norm_num) (by omega)
    omega

theorem roundEven53_close (P : Nat) (hP : P < 2 ^ 128) :
    2 ^ 53 * roundEven53 P ≤ 2 ^ 53 * P + P ∧
    2 ^ 53 * P ≤ 2 ^ 53 * roundEven53 P + P := by
  simp only [roundEven53]
  split
  · omega
  · next hb53 =>
    have hP1 : 1 ≤ P := by
      by_contra h0
      have hP0 : P = 0 := by omega
      rw [hP0, bitLenF_zero] at hb53
      omega
    obtain ⟨hlow, hhigh, hb1⟩ := bitLenF_spec 128 P hP hP1
    set b := bitLenF 128 P with hbdef
    have hb54 : 54 ≤ b := by omega
    obtain ⟨m, hm⟩ : ∃ m, P / 2 ^ (b - 53) = m := ⟨_, rfl⟩
    obtain ⟨r, hr⟩ : ∃ r, P % 2 ^ (b - 53) = r := ⟨_, rfl⟩
    have hdm : 2 ^ (b - 53) * m + r = P := by
      rw [← hm, ← hr]
      exact Nat.div_add_mod P _
    have hrlt : r < 2 ^ (b - 53) := by
      rw [← hr]
      exact Nat.mod_lt _ (by positivity)
    have e1 : (2:Nat) ^ (b - 53) = 2 * 2 ^ (b - 53 - 1) := by
      have h3 : b - 53 = b - 53 - 1 + 1 := by omega
      calc (2:Nat) ^ (b - 53) = 2 ^ (b - 53 - 1 + 1) := by rw [← h3]
        _ = 2 * 2 ^ (b - 53 - 1) := by rw [pow_succ]; ring
    have e2 : (2:Nat) ^ 53 * 2 ^ (b - 53 - 1) = 2 ^ (b - 1) := by
      rw [← pow_add]
      congr 1
      omega
    rw [hm, hr]
    have hmul1 : (m + 1) * 2 ^ (b - 53) = m * 2 ^ (b - 53) + 2 ^ (b - 53) := by
      ring
    have hcomm : 2 ^ (b - 53) * m = m * 2 ^ (b - 53) := Nat.mul_comm _ _
    rw [hcomm] at hdm
    split
    · rw [hmul1]
      generalize m * 2 ^ (b - 53) = Q at hdm
      omega
    · split
      · generalize m * 2 ^ (b - 53) = Q at hdm
        omega
      · split
        · generalize m * 2 ^ (b - 53) = Q at hdm
          omega
        · rw [hmul1]
          generalize m * 2 ^ (b - 53) = Q at hdm
          omega

theorem roundEven53_M8_exact (k : Nat) (hk : 1 ≤ k) (hk2 : k ≤ 2 ^ 48) :
    roundEven53 (M8 * (5 * k)) = 4 * k * 2 ^ 53 := by
  have hP8 : M8 * (5 * k) = 4 * k * 2 ^ 53 + 2 * k := by
    simp only [M8]
    omega
  have h4k : 4 * k < 2 ^ 128 := by omega
  obtain ⟨helow, hehigh, he1⟩ := bitLenF_spec 128 (4 * k) h4k (by omega)
  set e := bitLenF 128 (4 * k) with hedef
  have hele : e ≤ 51 := by
    by_contra hgt
    have : (2:Nat) ^ 51 ≤ 2 ^ (e - 1) := Nat.pow_le_pow_right (by norm_num) (by omega)
    omega
  have hA : 4 * k * 2 ^ (53 - e) * 2 ^ e = 4 * k * 2 ^ 53 := by
    rw [mul_assoc, ← pow_add]
    congr 2
    omega
  have hP8' : M8 * (5 * k) = 2 * k + 4 * k * 2 ^ (53 - e) * 2 ^ e := by
    rw [hA]
    omega
  -- the bit length of the product is e + 53
  have hb : bitLenF 128 (M8 * (5 * k)) = e + 53 := by
    have hup : M8 * (5 * k) < 2 ^ (e + 53) := by
      have h1 : 4 * k + 1 ≤ 2 ^ e := hehigh
      have h2 : (4 * k + 1) * 2 ^ 53 ≤ 2 ^ e * 2 ^ 53 :=
        Nat.mul_le_mul_right _ h1
      rw [← pow_add] at h2
      omega
    have hdown : 2 ^ (e + 53 - 1) ≤ M8 * (5 * k) := by
      have h1 : 2 ^ (e - 1) * 2 ^ 53 ≤ 4 * k * 2 ^ 53 :=
        Nat.mul_le_mul_right _ helow
      rw [← pow_add] at h1
      have h3 : e - 1 + 53 = e + 53 - 1 := by omega
      rw [h3] at h1
      omega
    have hPlt : M8 * (5 * k) < 2 ^ 128 := by
      have : (2:Nat) ^ (e + 53) ≤ 2 ^ 110 :=
        Nat.pow_le_pow_right (by norm_num) (by omega)
      omega
    obtain ⟨hl2, hh2, hb2⟩ := bitLenF_spec 128 (M8 * (5 * k)) hPlt (by
      simp only [M8]; omega)
    exact pow_bounds_unique _ _ _ hl2 hh2 hdown hup (by omega)
  simp only [roundEven53, hb]
  rw [if_neg (by omega)]
  have hs : e + 53 - 53 = e := by omega
  rw [hs]
  have hdiv : M8 * (5 * k) / 2 ^ e = 4 * k * 2 ^ (53 - e) := by
    rw [hP8', Nat.add_mul_div_right _ _ (by positivity),
      Nat.div_eq_of_lt (by omega)]
    omega
  have hmod : M8 * (5 * k) % 2 ^ e = 2 * k := by
    rw [hP8', Nat.add_mul_mod_self_right, Nat.mod_eq_of_lt (by omega)]
  rw [hdiv, hmod]
  have hee : (2:Nat) ^ e = 2 * 2 ^ (e - 1) := by
    have h3 : e = e - 1 + 1 := by omega
    calc (2:Nat) ^ e = 2 ^ (e - 1 + 1) := by rw [← h3]
      _ = 2 * 2 ^ (e - 1) := by rw [pow_succ]; ring
  have h2k : 2 * k < 2 ^ (e - 1) := by omega
  rw [if_neg (by omega), if_pos (by omega)]
  exact hA

theorem roundEven53_M3_exact (k : Nat) (hk : 1 ≤ k) (hk2 : k ≤ 2 ^ 48) :
    roundEven53 (M3 * (10 * k)) = 3 * k * 2 ^ 54 := by
  have hP3 : M3 * (10 * k) + 2 * k = 3 * k * 2 ^ 54 := by
    simp only [M3]
    omega
  have h3k : 3 * k < 2 ^ 128 := by omega
  obtain ⟨helow, hehigh, he1⟩ := bitLenF_spec 128 (3 * k) h3k (by omega)
  set e := bitLenF 128 (3 * k) with hedef
  have hele : e ≤ 51 := by
    by_contra hgt
    have : (2:Nat) ^ 51 ≤ 2 ^ (e - 1) := Nat.pow_le_pow_right (by norm_num) (by omega)
    omega
  -- 3*k is never an exact power of two, so the lower bound is strict
  have hstrict : 2 ^ (e - 1) < 3 * k := by
    rcases Nat.lt_or_ge (2 ^ (e - 1)) (3 * k) with h | h
    · exact h
    · exfalso
      have heq : 3 * k = 2 ^ (e - 1) := by omega
      have h3dvd : (3 : Nat) ∣ 2 ^ (e - 1) := ⟨k, by omega⟩
      have h32 := Nat.Prime.dvd_of_dvd_pow Nat.prime_three h3dvd
      norm_num at h32
  have hA : 3 * k * 2 ^ (53 - e) * 2 ^ (e + 1) = 3 * k * 2 ^ 54 := by
    rw [mul_assoc, ← pow_add]
    congr 2
    omega
  have hA1 : 0 < 3 * k * 2 ^ (53 - e) :=
    Nat.mul_pos (by omega) (pow_pos (by norm_num) _)
  have h2k : 2 * k < 2 ^ e := by omega
  have hP3' : M3 * (10 * k) =
      (2 ^ (e + 1) - 2 * k) + (3 * k * 2 ^ (53 - e) - 1) * 2 ^ (e + 1) := by
    have hsub : (3 * k * 2 ^ (53 - e) - 1) * 2 ^ (e + 1) =
        3 * k * 2 ^ (53 - e) * 2 ^ (e + 1) - 2 ^ (e + 1) := by
      rw [Nat.sub_mul, one_mul]
    rw [hsub, hA]
    have hee : (2:Nat) ^ (e + 1) = 2 * 2 ^ e := by rw [pow_succ]; ring
    have hbig : 2 ^ (e + 1) ≤ 3 * k * 2 ^ 54 := by
      have h1 : (2:Nat) ^ (e + 1) ≤ 2 ^ 54 := Nat.pow_le_pow_right (by norm_num) (by omega)
      omega
    omega
  have hb : bitLenF 128 (M3 * (10 * k)) = e + 54 := by
    have hup : M3 * (10 * k) < 2 ^ (e + 54) := by
      have h2 : 3 * k * 2 ^ 54 ≤ 2 ^ e * 2 ^ 54 :=
        Nat.mul_le_mul_right _ (by omega)
      rw [← pow_add] at h2
      omega
    have hdown : 2 ^ (e + 54 - 1) ≤ M3 * (10 * k) := by
      have h1 : (2 ^ (e - 1) + 1) * 2 ^ 54 ≤ 3 * k * 2 ^ 54 :=
        Nat.mul_le_mul_right _ (by omega)
      rw [Nat.add_mul, one_mul, ← pow_add] at h1
      have h3 : e - 1 + 54 = e + 54 - 1 := by omega
      rw [h3] at h1
      have h4 : (2:Nat) ^ 54 ≥ 2 * k + 1 := by omega
      omega
    have hPlt : M3 * (10 * k) < 2 ^ 128 := by
      have : (2:Nat) ^ (e + 54) ≤ 2 ^ 110 :=
        Nat.pow_le_pow_right (by norm_num) (by omega)
      omega
    obtain ⟨hl2, hh2, hb2⟩ := bitLenF_spec 128 (M3 * (10 * k)) hPlt (by
      simp only [M3]; omega)
    exact pow_bounds_unique _ _ _ hl2 hh2 hdown hup (by omega)
  simp only [roundEven53, hb]
  rw [if_neg (by omega)]
  have hs : e + 54 - 53 = e + 1 := by omega
  rw [hs]
  have hr0lt : 2 ^ (e + 1) - 2 * k < 2 ^ (e + 1) := by
    have : (0:Nat) < 2 * k := by omega
    omega
  have hdiv : M3 * (10 * k) / 2 ^ (e + 1) = 3 * k * 2 ^ (53 - e) - 1 := by
    rw [hP3', Nat.add_mul_div_right _ _ (by positivity),
      Nat.div_eq_of_lt hr0lt]
    omega
  have hmod : M3 * (10 * k) % 2 ^ (e + 1) = 2 ^ (e + 1) - 2 * k := by
    rw [hP3', Nat.add_mul_mod_self_right, Nat.mod_eq_of_lt hr0lt]
  rw [hdiv, hmod]
  have hee : (2:Nat) ^ (e + 1) = 2 * 2 ^ e := by rw [pow_succ]; ring
  have hhalf : (e + 1) - 1 = e := by omega
  rw [hhalf, if_pos (by omega)]
  have hfix : 3 * k * 2 ^ (53 - e) - 1 + 1 = 3 * k * 2 ^ (53 - e) := by omega
  rw [hfix]
  exact hA

/-- The `t < target*0.8` comparison of line 244 agrees with the exact
rational comparison `5*t < 4*target` for every target up to `2^50`. -/
theorem lt08F_iff (t target : Nat) (h : target ≤ 2 ^ 50) :
    lt08F t target = true ↔ 5 * t < 4 * target := by
  have hP : M8 * target < 2 ^ 128 := by simp only [M8]; omega
  obtain ⟨hc1, hc2⟩ := roundEven53_close (M8 * target) hP
  unfold lt08F
  rw [decide_eq_true_eq]
  constructor
  · intro hlt
    by_contra hge
    rcases Nat.lt_or_ge (4 * target) (5 * t) with hgt | heq2
    · -- strictly above the exact threshold: the round value is below t*2^53
      simp only [M8] at hc1 hc2 hlt
      omega
    · -- exactly on the threshold: 5*t = 4*target, so 5 ∣ target
      have heq : 5 * t = 4 * target := by omega
      have hdvd : (5:Nat) ∣ target := by
        have h5 : (5:Nat) ∣ 4 * target := ⟨t, by omega⟩
        exact (Nat.Coprime.dvd_of_dvd_mul_left (by decide) h5)
      obtain ⟨k, hkdef⟩ := hdvd
      rcases Nat.eq_zero_or_pos k with hk0 | hkpos
      · subst hk0
        simp at hkdef
        subst hkdef
        have h0 : roundEven53 (M8 * 0) = 0 := by decide
        rw [h0] at hlt
        omega
      · have hk48 : k ≤ 2 ^ 48 := by omega
        have hkc : target = 5 * k := by omega
        rw [hkc, roundEven53_M8_exact k hkpos hk48] at hlt
        have ht4k : t = 4 * k := by omega
        rw [ht4k] at hlt
        omega
  · intro hlt
    simp only [M8] at hc1 hc2 ⊢
    omega

/-- The `i < n*0.3` comparison of line 174 agrees with the exact rational
comparison `10*i < 3*n` for every n up to `2^50`. -/
theorem lt03F_iff (i n : Nat) (h : n ≤ 2 ^ 50) :
    lt03F i n = true ↔ 10 * i < 3 * n := by
  have hP : M3 * n < 2 ^ 128 := by simp only [M3]; omega
  obtain ⟨hc1, hc2⟩ := roundEven53_close (M3 * n) hP
  unfold lt03F
  rw [decide_eq_true_eq]
  constructor
  · intro hlt
    by_contra hge
    rcases Nat.lt_or_ge (3 * n) (10 * i) with hgt | heq2
    · simp only [M3] at hc1 hc2 hlt
      omega
    · have heq : 10 * i = 3 * n := by omega
      have hdvd : (10:Nat) ∣ n := by
        have h10 : (10:Nat) ∣ 3 * n := ⟨i, by omega⟩
        exact (Nat.Coprime.dvd_of_dvd_mul_left (by decide) h10)
      obtain ⟨k, hkdef⟩ := hdvd
      rcases Nat.eq_zero_or_pos k with hk0 | hkpos
      · subst hk0
        simp at hkdef
        subst hkdef
        have h0 : roundEven53 (M3 * 0) = 0 := by decide
        rw [h0] at hlt
        omega
      · have hk48 : k ≤ 2 ^ 48 := by omega
        have hkc : n = 10 * k := by omega
        rw [hkc, roundEven53_M3_exact k hkpos hk48] at hlt
        have ht3k : i = 3 * k := by omega
        rw [ht3k] at hlt
        omega
  · intro hlt
    simp only [M3] at hc1 hc2 ⊢
    omega

/-- Soundness of the `i > n*0.7` comparison of line 176: it holds whenever
the exact comparison does. -/
theorem gt07F_of_exact (i n : Nat) (h : n ≤ 2 ^ 49) (hgt : 7 * n < 10 * i) :
    gt07F i n = true := by
  have hP : M7 * n < 2 ^ 128 := by simp only [M7]; omega
  obtain ⟨hc1, hc2⟩ := roundEven53_close (M7 * n) hP
  unfold gt07F
  rw [decide_eq_true_eq]
  simp only [M7] at hc1 hc2 ⊢
  omega

/-- Partial converse of `gt07F_of_exact`: the float comparison never fires
strictly below the exact threshold (it can fire exactly on it, e.g. at
`i = 63`, `n = 90`). -/
theorem exact_of_gt07F (i n : Nat) (h : n ≤ 2 ^ 49) (hgt : gt07F i n = true) :
    7 * n ≤ 10 * i := by
  have hP : M7 * n < 2 ^ 128 := by simp only [M7]; omega
  obtain ⟨hc1, hc2⟩ := roundEven53_close (M7 * n) hP
  unfold gt07F at hgt
  rw [decide_eq_true_eq] at hgt
  simp only [M7] at hc1 hc2 hgt
  omega

/-! ## C3: the positional multiplier -/

/-- C3 counterexample: with 90 sentences, index 63 sits exactly on the 70%
boundary — it is neither in the first 30% (10*63 ≥ 3*90) nor strictly in the
last 30% (7*90 = 10*63, not less) — so the claimed multiplier is 1.0; but
the double product `90 * 0.7` rounds below 63, the `elif` fires, and the
code assigns 1.1. -/
theorem position_bonus_cex :
    ¬ (10 * 63 < 3 * 90) ∧ ¬ (7 * 90 < 10 * 63) ∧
    positionBonus 63 90 = 11 / 10 ∧ positionBonus 63 90 ≠ 1 := by
  have h1 : lt03F 63 90 = false := by decide
  have h2 : gt07F 63 90 = true := by decide
  refine ⟨by omega, by omega, ?_, ?_⟩
  · simp [positionBonus, h1, h2]
  · simp only [positionBonus, h1, h2]
    norm_num

/-- C3 amended: the multiplier is 1.2 whenever the index is strictly in the
first 30% of sentences, 1.1 whenever it is strictly in the last 30%, and 1.0
when neither float check fires; the two windows can never both hold (the
`elif` is equivalent to an independent check), so the cumulative-bonus
clause for overlapping windows is vacuous.  The float check `i > n*0.7` can
additionally fire exactly on the 70% boundary for some n (see the
counterexample), which is the only divergence from the claimed exact
characterization. -/
theorem position_bonus_cases (i n : Nat) (hn : n ≤ 2 ^ 49) :
    (10 * i < 3 * n → positionBonus i n = 6 / 5) ∧
    (7 * n < 10 * i → positionBonus i n = 11 / 10) ∧
    (lt03F i n = false → gt07F i n = false → positionBonus i n = 1) ∧
    ¬ (10 * i < 3 * n ∧ 7 * n < 10 * i) := by
  have hn50 : n ≤ 2 ^ 50 := by omega
  refine ⟨?_, ?_, ?_, by omega⟩
  · intro h
    have h1 : lt03F i n = true := (lt03F_iff i n hn50).mpr h
    simp [positionBonus, h1]
  · intro h
    have h2 : gt07F i n = true := gt07F_of_exact i n hn h
    have h1 : lt03F i n = false := by
      cases hx : lt03F i n with
      | false => rfl
      | true =>
        have := (lt03F_iff i n hn50).mp hx
        omega
    simp [positionBonus, h1, h2]
  · intro h1 h2
    simp [positionBonus, h1, h2]

/-- Witness for C3 amended at n = 90, indices 5 (first 30%), 80 (last 30%)
and 40 (middle). -/
theorem position_bonus_cases_witness :
    (90 : Nat) ≤ 2 ^ 49 ∧ positionBonus 5 90 = 6 / 5 ∧
    positionBonus 80 90 = 11 / 10 ∧ positionBonus 40 90 = 1 :=
  ⟨by norm_num, (position_bonus_cases 5 90 (by norm_num)).1 (by norm_num),
   (position_bonus_cases 80 90 (by norm_num)).2.1 (by norm_num),
   (position_bonus_cases 40 90 (by norm_num)).2.2.1 (by decide) (by decide)⟩

/-! ## C5: where the greedy accumulation stops -/

/-- C5 counterexample: budget 20, sorted tuples of word lengths 15, 10, 5
(each sentence really has that whitespace word count).  The length-10
sentence overflows while the total (15) is still below 80% of the budget
but fewer than 10 budget words remain — the claim says accumulation stops
there, yet the length-5 sentence is still appended. -/
theorem greedy_stop_cex :
    buildParts 20 0
      [((3 : ℚ), ("one two three four five six seven eight nine ten eleven twelve thirteen fourteen fifteen").data, 15),
       ((2 : ℚ), ("alpha beta gamma delta epsilon zeta eta theta iota kappa").data, 10),
       ((1 : ℚ), ("red green blue cyan magenta").data, 5)] =
      [("one two three four five six seven eight nine ten eleven twelve thirteen fourteen fifteen").data,
       ("red green blue cyan magenta").data] ∧
    (splitWs ("alpha beta gamma delta epsilon zeta eta theta iota kappa").data).length = 10 ∧
    ¬ (15 + 10 ≤ 20) ∧ 20 - 15 < 10 :=
  ⟨by decide, by decide, by decide, by decide⟩

/-- C5 amended: when the next sentence in score order would overflow, the
loop stops immediately only if the running total has reached 80% of
`target_words`; if the total is below 80% but fewer than 10 budget words
remain, the overflowing sentence is merely skipped and accumulation
continues with the remaining sentences. -/
theorem greedy_stop_amended (target total len : Nat) (q : ℚ) (s : List Char)
    (rest : List (ℚ × List Char × Nat)) (htarget : target ≤ 2 ^ 50)
    (hover : target < total + len) :
    (4 * target ≤ 5 * total →
      buildParts target total ((q, s, len) :: rest) = []) ∧
    (5 * total < 4 * target → target - total < 10 →
      buildParts target total ((q, s, len) :: rest) =
        buildParts target total rest) := by
  constructor
  · intro h
    have hc : ¬ (lt08F total target = true) := by
      rw [lt08F_iff total target htarget]
      omega
    simp only [buildParts]
    rw [if_neg (by omega), if_neg hc]
  · intro h1 h2
    simp only [buildParts]
    rw [if_neg (by omega), if_pos ((lt08F_iff total target htarget).mpr h1),
      if_neg (by omega)]

/-- Witness for C5 amended: the skip-and-continue branch at budget 20,
running total 15. -/
theorem greedy_stop_amended_witness :
    ((20 : Nat) ≤ 2 ^ 50 ∧ 20 < 15 + 10 ∧ 5 * 15 < 4 * 20 ∧ 20 - 15 < 10) ∧
    buildParts 20 15
      [((2 : ℚ), ("alpha beta gamma delta epsilon zeta eta theta iota kappa").data, 10),
       ((1 : ℚ), ("red green blue cyan magenta").data, 5)] =
      buildParts 20 15 [((1 : ℚ), ("red green blue cyan magenta").data, 5)] :=
  ⟨⟨by norm_num, by norm_num, by norm_num, by norm_num⟩,
   (greedy_stop_amended 20 15 10 (2 : ℚ)
      ("alpha beta gamma delta epsilon zeta eta theta iota kappa").data
      [((1 : ℚ), ("red green blue cyan magenta").data, 5)]
      (by norm_num) (by norm_num)).2 (by norm_num) (by norm_num)⟩

/-! ## Lemmas about `str.split()` and `" ".join` -/

theorem splitWsAux_allNonWs (l : List Char) (accRev : List Char)
    (h : ∀ c ∈ l, isWs c = false) :
    splitWsAux accRev l = flushAcc (l.reverse ++ accRev) := by
  induction l generalizing accRev with
  | nil => simp [splitWsAux]
  | cons c cs ih =>
    have hc : isWs c = false := h c (by simp)
    rw [splitWsAux, if_neg (by simp [hc]), ih _ (fun d hd => h d (by simp [hd]))]
    simp

theorem splitWs_allNonWs (l : List Char) (hne : l ≠ [])
    (h : ∀ c ∈ l, isWs c = false) : splitWs l = [l] := by
  unfold splitWs
  rw [splitWsAux_allNonWs l [] h]
  simp [flushAcc, hne]

theorem splitWsAux_append_sep (a b : List Char) (accRev : List Char) :
    splitWsAux accRev (a ++ ' ' :: b) = splitWsAux accRev a ++ splitWs b := by
  induction a generalizing accRev with
  | nil =>
    simp only [List.nil_append, splitWsAux, splitWs]
    rw [if_pos (by decide)]
  | cons c cs ih =>
    simp only [List.cons_append, splitWsAux, List.append_eq]
    by_cases hc : isWs c = true
    · rw [if_pos hc, if_pos hc, ih, List.append_assoc]
    · rw [if_neg hc, if_neg hc, ih]

theorem splitWs_joinSp (parts : List (List Char)) :
    splitWs (joinSp parts) = (parts.map splitWs).flatten := by
  induction parts with
  | nil => rfl
  | cons p ps ih =>
    cases ps with
    | nil => simp [joinSp]
    | cons q qs =>
      have h1 : joinSp (p :: q :: qs) = p ++ ' ' :: joinSp (q :: qs) := rfl
      have h2 : splitWs (p ++ ' ' :: joinSp (q :: qs)) =
          splitWsAux [] p ++ splitWs (joinSp (q :: qs)) :=
        splitWsAux_append_sep p (joinSp (q :: qs)) []
      rw [show splitWs (joinSp (p :: q :: qs)) =
            splitWsAux [] p ++ splitWs (joinSp (q :: qs)) from h1 ▸ h2, ih]
      simp [splitWs]

theorem length_splitWs_joinSp (parts : List (List Char)) :
    (splitWs (joinSp parts)).length =
      (parts.map (fun p => (splitWs p).length)).sum := by
  rw [splitWs_joinSp]
  simp [List.map_map, Function.comp_def]

theorem mem_flushAcc (accRev w : List Char)
    (hacc : ∀ c ∈ accRev, isWs c = false) (hw : w ∈ flushAcc accRev) :
    w ≠ [] ∧ ∀ c ∈ w, isWs c = false := by
  unfold flushAcc at hw
  split at hw
  · simp at hw
  · next hne =>
    simp only [List.mem_singleton] at hw
    subst hw
    refine ⟨fun hrev => ?_, fun c hc => hacc c (List.mem_reverse.mp hc)⟩
    rw [List.reverse_eq_nil_iff] at hrev
    simp [hrev] at hne

theorem mem_splitWsAux (l : List Char) (accRev w : List Char)
    (hacc : ∀ c ∈ accRev, isWs c = false) (hw : w ∈ splitWsAux accRev l) :
    w ≠ [] ∧ ∀ c ∈ w, isWs c = false := by
  induction l generalizing accRev with
  | nil => exact mem_flushAcc accRev w hacc hw
  | cons c cs ih =>
    rw [splitWsAux] at hw
    by_cases hc : isWs c = true
    · rw [if_pos hc] at hw
      rcases List.mem_append.mp hw with h | h
      · exact mem_flushAcc accRev w hacc h
      · exact ih [] (by simp) h
    · rw [if_neg hc] at hw
      refine ih (c :: accRev) ?_ hw
      intro d hd
      rcases List.mem_cons.mp hd with rfl | hd
      · simpa using hc
      · exact hacc d hd

theorem mem_splitWs (l w : List Char) (hw : w ∈ splitWs l) :
    w ≠ [] ∧ ∀ c ∈ w, isWs c = false :=
  mem_splitWsAux l [] w (by simp) hw

theorem length_splitWs_joinSp_append (ws : List (List Char)) (tail : List Char)
    (hws : ∀ w ∈ ws, w ≠ [] ∧ ∀ c ∈ w, isWs c = false) (hne : ws ≠ [])
    (htail : ∀ c ∈ tail, isWs c = false) :
    (splitWs (joinSp ws ++ tail)).length = ws.length := by
  induction ws with
  | nil => cases hne rfl
  | cons w vs ih =>
    cases vs with
    | nil =>
      have hw := hws w (by simp)
      have : splitWs (w ++ tail) = [w ++ tail] := by
        refine splitWs_allNonWs _ (by simp [hw.1]) ?_
        intro c hc
        rcases List.mem_append.mp hc with h | h
        · exact hw.2 c h
        · exact htail c h
      simp [joinSp, this]
    | cons v vs2 =>
      have hw := hws w (by simp)
      have hstep : joinSp (w :: v :: vs2) ++ tail =
          w ++ ' ' :: (joinSp (v :: vs2) ++ tail) := by
        simp [joinSp]
      rw [hstep, show splitWs (w ++ ' ' :: (joinSp (v :: vs2) ++ tail)) =
            splitWsAux [] w ++ splitWs (joinSp (v :: vs2) ++ tail) from
          splitWsAux_append_sep w (joinSp (v :: vs2) ++ tail) []]
      have hsw : splitWsAux [] w = [w] := splitWs_allNonWs w hw.1 hw.2
      rw [hsw]
      simp only [List.length_append, List.length_cons, List.length_nil]
      rw [ih (fun u hu => hws u (by simp [hu])) (by simp)]
      simp
      omega

/-! ## Sorting lemmas -/

theorem insDescBy_perm {α : Type} (lt : α → α → Bool) (x : α) (l : List α) :
    (insDescBy lt x l).Perm (x :: l) := by
  induction l with
  | nil => exact List.Perm.refl _
  | cons y ys ih =>
    rw [insDescBy]
    split
    · exact (List.Perm.cons y ih).trans (List.Perm.swap x y ys)
    · exact List.Perm.refl _

theorem sortDescBy_perm {α : Type} (lt : α → α → Bool) (l : List α) :
    (sortDescBy lt l).Perm l := by
  induction l with
  | nil => exact List.Perm.refl _
  | cons x xs ih => exact (insDescBy_perm lt x _).trans (List.Perm.cons x ih)

/-! ## C1: the budget is respected -/

theorem splitWs_take_words (s : List Char) (n : Nat) :
    ∀ w ∈ (splitWs s).take n, w ≠ [] ∧ ∀ c ∈ w, isWs c = false := by
  intro w hw
  exact mem_splitWs s w ((List.take_sublist n (splitWs s)).subset hw)

theorem length_splitWs_truncate (s : List Char) (r : Nat) (h10 : 10 ≤ r)
    (hlen : r < (splitWs s).length) :
    (splitWs (truncateSentence s r)).length = r - 1 := by
  unfold truncateSentence
  rw [length_splitWs_joinSp_append]
  · rw [List.length_take, Nat.min_def]
    split <;> omega
  · exact splitWs_take_words s (r - 1)
  · intro hnil
    have hl := congrArg List.length hnil
    rw [List.length_take, Nat.min_def] at hl
    simp at hl
    split at hl <;> omega
  · decide

theorem buildParts_le_budget (target : Nat) (l : List (ℚ × List Char × Nat)) :
    ∀ total : Nat, (∀ x ∈ l, (splitWs x.2.1).length = x.2.2) → total ≤ target →
      total + ((buildParts target total l).map
        (fun p => (splitWs p).length)).sum ≤ target := by
  induction l with
  | nil =>
    intro total _ htot
    simpa [buildParts] using htot
  | cons x rest ih =>
    obtain ⟨q, s, len⟩ := x
    intro total hcons htot
    simp only [buildParts]
    by_cases h1 : total + len ≤ target
    · rw [if_pos h1]
      simp only [List.map_cons, List.sum_cons]
      have hlen : (splitWs s).length = len := hcons (q, s, len) (by simp)
      have hrec := ih (total + len) (fun y hy => hcons y (by simp [hy])) h1
      omega
    · rw [if_neg h1]
      by_cases h2 : lt08F total target = true
      · rw [if_pos h2]
        by_cases h3 : 10 ≤ target - total
        · rw [if_pos h3]
          have hlen : (splitWs s).length = len := hcons (q, s, len) (by simp)
          have htr : (splitWs (truncateSentence s (target - total))).length =
              target - total - 1 :=
            length_splitWs_truncate s (target - total) h3 (by omega)
          simp only [List.map_cons, List.map_nil, List.sum_cons, List.sum_nil]
          omega
        · rw [if_neg h3]
          exact ih total (fun y hy => hcons y (by simp [hy])) htot
      · rw [if_neg h2]
        simpa using htot

/-- C1: whenever `summarize_budgeted` does not take the short-circuit path,
the whitespace word count of the returned summary (including any truncated
tail — its glued ellipsis adds no extra word) never exceeds `target_words`,
hence in particular exceeds it by no more than the ellipsis overhead; when
no sentence qualifies the accumulation is empty and the result is the empty
string, which satisfies the same bound. -/
theorem budget_respected (text : List Char) (target : Nat) (h1 : 1 ≤ target)
    (h2 : target < (splitWs (clean_text text)).length) :
    (splitWs (simple_abstractive_summarize text target)).length ≤ target := by
  show (splitWs (abstractiveBody text target)).length ≤ target
  simp only [abstractiveBody]
  rw [if_neg (by omega), length_splitWs_joinSp]
  have hcons : ∀ x ∈ sortDescBy tupLt
      (scoredTuples (importantWords (get_stopwords none) (clean_text text))
        (simple_sent_tokenize (clean_text text))),
      (splitWs x.2.1).length = x.2.2 := by
    intro x hx
    have hx2 := (sortDescBy_perm tupLt _).mem_iff.mp hx
    simp only [scoredTuples] at hx2
    rcases List.mem_filterMap.mp hx2 with ⟨s, _, hfs⟩
    split at hfs
    · rw [Option.some_inj] at hfs
      subst hfs
      simp
    · exact Option.noConfusion hfs
  have hmain := buildParts_le_budget target
    (sortDescBy tupLt
      (scoredTuples (importantWords (get_stopwords none) (clean_text text))
        (simple_sent_tokenize (clean_text text)))) 0 hcons (Nat.zero_le _)
  omega

/-- Witness for C1 on a five-word document with budget 3. -/
theorem budget_respected_witness :
    ((1 : Nat) ≤ 3 ∧
      3 < (splitWs (clean_text
        ("Apple banana cherry dog elephant.").data)).length) ∧
    (splitWs (simple_abstractive_summarize
      ("Apple banana cherry dog elephant.").data 3)).length ≤ 3 :=
  ⟨⟨by norm_num, by decide⟩,
   budget_respected ("Apple banana cherry dog elephant.").data 3 (by norm_num)
     (by decide)⟩

/-! ## C2: extractive output preserves document order -/

/-- C2: for every input text and sentence count, the sentences emitted by
`summarize_extractive` form a sublist of the tokenized input document, i.e.
they appear in original document order, and the returned string is exactly
their space-join. -/
theorem extractive_order_preserved (text : List Char) (numSentences : Nat) :
    (extractiveSelected text numSentences).Sublist
      (simple_sent_tokenize (clean_text text)) ∧
    extractive_summarize text numSentences =
      joinSp (extractiveSelected text numSentences) := by
  constructor
  · simp only [extractiveSelected]
    split
    · exact List.Sublist.refl _
    · exact List.filter_sublist _
  · rfl

/-! ## C7: the soft-fail error contract -/

/-- C7: the summarizer boundary converts every internal failure into the
string "Error during summarization: " followed by the failure description
(and passes successful results through unchanged); being a total function,
it never propagates an exception. -/
theorem soft_fail_contract (msg s : List Char) :
    runSummarizer (Except.error msg) = errText ++ msg ∧
    runSummarizer (Except.ok s) = s ∧
    ∃ rest, runSummarizer (Except.error msg) =
      ("Error during summarization: ").data ++ rest :=
  ⟨rfl, rfl, msg, rfl⟩

/-! ## C9: the stopword provider -/

/-- C9: `get_stopwords` never fails and returns a non-empty set: when the
backend is unavailable or its corpus lookup raises (`backend = none`) it
returns the built-in list, which is non-empty; when the lookup succeeds the
corpus itself is returned (non-empty provided the external corpus is). -/
theorem stopwords_nonempty (backend : Option (List (List Char)))
    (h : ∀ ws, backend = some ws → ws ≠ []) : get_stopwords backend ≠ [] := by
  cases backend with
  | none =>
    intro hc
    simp [get_stopwords, BASIC_STOPWORDS] at hc
  | some ws => exact h ws rfl

/-- Witness for C9 at the fallback case. -/
theorem stopwords_nonempty_witness : get_stopwords none ≠ [] :=
  stopwords_nonempty none (fun _ h => by cases h)

/-! ## C8: what the word tokenizer returns -/

theorem toLower_no_digit_underscore (c : Char) (h1 : c.isDigit = false)
    (h2 : c ≠ '_') : (c.toLower).isDigit = false ∧ c.toLower ≠ '_' := by
  have hz : c.toLower =
      if c.toNat ≥ 65 ∧ c.toNat ≤ 90 then Char.ofNat (c.toNat + 32) else c :=
    rfl
  rw [hz]
  split
  · next hrange =>
    have h65 : 65 ≤ c.toNat := hrange.1
    have h90 : c.toNat ≤ 90 := hrange.2
    generalize c.toNat = n at h65 h90
    interval_cases n <;> exact ⟨by decide, by decide⟩
  · exact ⟨h1, h2⟩

theorem isAlpha_of_wordChar (c : Char) (h1 : c.isDigit = false)
    (h2 : c ≠ '_') (hw : isWordChar c = true) : c.isAlpha = true := by
  unfold isWordChar Char.isAlphanum at hw
  rcases Bool.or_eq_true_iff.mp hw with h | h
  · rcases Bool.or_eq_true_iff.mp h with h | h
    · exact h
    · rw [h1] at h
      cases h
  · exact absurd (by simpa using h) h2

theorem wordTokAux_eq_maxRunsAux (l : List Char)
    (h : ∀ c ∈ l, c.isAlpha = false → isWordChar c = false) :
    ∀ runRev, wordTokAux false runRev l = maxRunsAux runRev l := by
  induction l with
  | nil =>
    intro runRev
    simp [wordTokAux, maxRunsAux, closeRun]
  | cons c cs ih =>
    intro runRev
    by_cases hca : c.isAlpha = true
    · rw [wordTokAux, if_pos hca, maxRunsAux, if_pos hca]
      exact ih (fun d hd => h d (by simp [hd])) (c :: runRev)
    · have hcw : isWordChar c = false :=
        h c (by simp) (by simpa using hca)
      rw [wordTokAux, if_neg hca, maxRunsAux, if_neg hca, hcw,
        ih (fun d hd => h d (by simp [hd])) []]
      simp [closeRun]

/-- C8 counterexample: on the input "ab1cd" the tokenizer returns no
token at all, while the maximal alphabetic runs of length ≥ 2 are "ab" and
"cd" — the word-boundary anchors drop letter runs glued to digits, so the
output is not "exactly the maximal runs of 2 or more alphabetic
characters". -/
theorem word_tokenize_cex :
    simple_word_tokenize ("ab1cd").data = [] ∧
    maxAlphaRuns ("ab1cd").data = [("ab").data, ("cd").data] ∧
    simple_word_tokenize ("ab1cd").data ≠ maxAlphaRuns ("ab1cd").data := by
  exact ⟨by decide, by decide, by decide⟩

/-- C8 amended: on inputs containing no digit and no underscore (so that the
word-boundary anchors of the pattern are inert), `simple_word_tokenize`
returns exactly the maximal runs of 2 or more alphabetic characters of the
lowercased input; everything else is dropped. -/
theorem word_tokenize_amended (text : List Char)
    (h : ∀ c ∈ text, c.isDigit = false ∧ c ≠ '_') :
    simple_word_tokenize text = maxAlphaRuns text := by
  unfold simple_word_tokenize maxAlphaRuns
  refine wordTokAux_eq_maxRunsAux (pyLower text) ?_ []
  intro c hc hna
  rcases List.mem_map.mp hc with ⟨c0, hc0, rfl⟩
  have hkeep := toLower_no_digit_underscore c0 (h c0 hc0).1 (h c0 hc0).2
  cases hx : isWordChar c0.toLower
  · rfl
  · exact absurd (isAlpha_of_wordChar _ hkeep.1 hkeep.2 hx) (by simp [hna])

/-- Witness for C8 amended: a digit- and underscore-free input evaluated
concretely. -/
theorem word_tokenize_amended_witness :
    (∀ c ∈ ("Hello, big World").data, c.isDigit = false ∧ c ≠ '_') ∧
    simple_word_tokenize ("Hello, big World").data =
      maxAlphaRuns ("Hello, big World").data ∧
    maxAlphaRuns ("Hello, big World").data =
      [("hello").data, ("big").data, ("world").data] :=
  ⟨by decide, word_tokenize_amended _ (by decide), by decide⟩

/-! ## C10: empty or whitespace-only input -/

theorem collapseAux_allWs (l : List Char) (h : ∀ c ∈ l, isWs c = true) :
    collapseAux true l = [] ∧ (l ≠ [] → collapseAux false l = [' ']) := by
  induction l with
  | nil => simp [collapseAux]
  | cons c cs ih =>
    have hc : isWs c = true := h c (by simp)
    have ihh := ih (fun d hd => h d (by simp [hd]))
    refine ⟨?_, fun _ => ?_⟩
    · rw [collapseAux, if_pos hc, if_pos rfl, ihh.1]
    · rw [collapseAux, if_pos hc]
      simp [ihh.1]

theorem clean_text_allWs (text : List Char) (h : ∀ c ∈ text, isWs c = true) :
    clean_text text = [] := by
  unfold clean_text collapseWs
  rcases eq_or_ne text [] with rfl | hne
  · rfl
  · rw [(collapseAux_allWs text h).2 hne]
    decide

/-- C10: on an empty or whitespace-only input, both summarizers return the
empty string (not an error string): the extractive path short-circuits with
zero sentences, the budgeted path short-circuits with word count zero. -/
theorem empty_input_empty_summary (text : List Char) (n target : Nat)
    (hn : 1 ≤ n) (ht : 1 ≤ target) (h : ∀ c ∈ text, isWs c = true) :
    extractive_summarize text n = [] ∧
    simple_abstractive_summarize text target = [] := by
  have hc : clean_text text = [] := clean_text_allWs text h
  constructor
  · show runSummarizer (Except.ok (joinSp (extractiveSelected text n))) = []
    have hsel : extractiveSelected text n = [] := by
      have h0 : simple_sent_tokenize ([] : List Char) = [] := by decide
      simp only [extractiveSelected, hc, h0]
      simp
    rw [hsel]
    rfl
  · show runSummarizer (Except.ok (abstractiveBody text target)) = []
    have hbody : abstractiveBody text target = [] := by
      have h0 : splitWs ([] : List Char) = [] := by decide
      simp only [abstractiveBody, hc, h0]
      simp
    rw [hbody]
    rfl

/-! ## C4: idempotence of the normalizer -/

theorem mem_collapseAux (l : List Char) (b : Bool) (c : Char)
    (hc : c ∈ collapseAux b l) : c = ' ' ∨ c ∈ l := by
  induction l generalizing b with
  | nil => simp [collapseAux] at hc
  | cons d ds ih =>
    rw [collapseAux] at hc
    by_cases hd : isWs d = true
    · rw [if_pos hd] at hc
      cases b with
      | true =>
        rcases ih true (by simpa using hc) with h | h
        · exact Or.inl h
        · exact Or.inr (by simp [h])
      | false =>
        rcases List.mem_cons.mp (by simpa using hc) with rfl | h
        · exact Or.inl rfl
        · rcases ih true h with h2 | h2
          · exact Or.inl h2
          · exact Or.inr (by simp [h2])
    · rw [if_neg hd] at hc
      rcases List.mem_cons.mp hc with rfl | h
      · exact Or.inr (by simp)
      · rcases ih false h with h2 | h2
        · exact Or.inl h2
        · exact Or.inr (by simp [h2])

theorem collapseAux_ws_is_space (l : List Char) (b : Bool) (c : Char)
    (hc : c ∈ collapseAux b l) (hcw : isWs c = true) : c = ' ' := by
  induction l generalizing b with
  | nil => simp [collapseAux] at hc
  | cons d ds ih =>
    rw [collapseAux] at hc
    by_cases hd : isWs d = true
    · rw [if_pos hd] at hc
      cases b with
      | true => exact ih true (by simpa using hc)
      | false =>
        rcases List.mem_cons.mp (by simpa using hc) with rfl | h
        · rfl
        · exact ih true h
    · rw [if_neg hd] at hc
      rcases List.mem_cons.mp hc with rfl | h
      · rw [hcw] at hd
        cases hd rfl
      · exact ih false h

theorem collapseAux_chain (l : List Char) :
    ∀ b : Bool,
      (b = true → ∀ c, (collapseAux b l).head? = some c → isWs c = false) ∧
      (collapseAux b l).Chain' (fun a b => ¬(isWs a = true ∧ isWs b = true)) := by
  induction l with
  | nil => intro b; simp [collapseAux]
  | cons d ds ih =>
    intro b
    by_cases hd : isWs d = true
    · cases b with
      | true =>
        have e1 : collapseAux true (d :: ds) = collapseAux true ds := by
          rw [collapseAux, if_pos hd]
          simp
        rw [e1]
        exact ih true
      | false =>
        have e2 : collapseAux false (d :: ds) = ' ' :: collapseAux true ds := by
          rw [collapseAux, if_pos hd]
          simp
        rw [e2]
        refine ⟨(fun h => by cases h), List.chain'_cons'.mpr ⟨?_, (ih true).2⟩⟩
        intro y hy
        have : isWs y = false := (ih true).1 rfl y hy
        simp [this]
    · have e3 : collapseAux b (d :: ds) = d :: collapseAux false ds := by
        rw [collapseAux, if_neg hd]
      rw [e3]
      refine ⟨fun _ c hc => ?_, List.chain'_cons'.mpr ⟨?_, (ih false).2⟩⟩
      · simp only [List.head?_cons, Option.some.injEq] at hc
        subst hc
        simpa using hd
      · intro y _
        simp [hd]

theorem collapseAux_fixed (l : List Char)
    (hsp : ∀ c ∈ l, isWs c = true → c = ' ')
    (hch : l.Chain' (fun a b => ¬(isWs a = true ∧ isWs b = true))) :
    ∀ b : Bool, (b = true → ∀ c, l.head? = some c → isWs c = false) →
      collapseAux b l = l := by
  induction l with
  | nil => intro b _; simp [collapseAux]
  | cons d ds ih =>
    intro b hb
    by_cases hd : isWs d = true
    · have hd2 : d = ' ' := hsp d (by simp) hd
      have hbf : b = false := by
        cases b with
        | false => rfl
        | true =>
          have := hb rfl d rfl
          rw [hd] at this
          cases this
      subst hbf
      rw [collapseAux, if_pos hd]
      simp only [Bool.false_eq_true, if_false]
      have hds : collapseAux true ds = ds := by
        refine ih (fun c hc hw => hsp c (by simp [hc]) hw)
          (List.chain'_cons'.mp hch).2 true ?_
        intro _ c hc
        have hr := (List.chain'_cons'.mp hch).1 c hc
        cases hx : isWs c with
        | false => rfl
        | true => exact absurd ⟨hd, hx⟩ hr
      rw [hds, hd2]
    · rw [collapseAux, if_neg hd]
      have hds : collapseAux false ds = ds :=
        ih (fun c hc hw => hsp c (by simp [hc]) hw)
          (List.chain'_cons'.mp hch).2 false (fun h => by cases h)
      rw [hds]

theorem collapse_allowed (l : List Char) (h : ∀ c ∈ l, isAllowed c = true)
    (b : Bool) : ∀ c ∈ collapseAux b l, isAllowed c = true := by
  intro c hc
  rcases mem_collapseAux l b c hc with rfl | hcl
  · decide
  · exact h c hcl

theorem dropWhile_idem (p : Char → Bool) (l : List Char) :
    (l.dropWhile p).dropWhile p = l.dropWhile p := by
  cases hd : l.dropWhile p with
  | nil => rfl
  | cons c cs =>
    have hw : c ∈ (l.dropWhile p).head? := by simp [hd]
    have hc : p c = false := by
      have h2 := List.head?_dropWhile_not p l
      rw [hd] at h2
      simpa using h2
    simp [List.dropWhile_cons, hc]

theorem dropEndWs_idem (l : List Char) :
    dropEndWs (dropEndWs l) = dropEndWs l := by
  unfold dropEndWs
  rw [List.reverse_reverse, dropWhile_idem]

theorem dropEndWs_isPre (l : List Char) : dropEndWs l <+: l := by
  have h := List.IsSuffix.reverse (List.dropWhile_suffix (l := l.reverse) isWs)
  simpa [dropEndWs] using h

theorem dropWhile_dropEndWs (m : List Char) (hm : m.dropWhile isWs = m) :
    (dropEndWs m).dropWhile isWs = dropEndWs m := by
  cases he : dropEndWs m with
  | nil => rfl
  | cons c cs =>
    obtain ⟨t, ht⟩ := dropEndWs_isPre m
    rw [he] at ht
    have hc : isWs c = false := by
      cases hx : isWs c with
      | false => rfl
      | true =>
        rw [← ht, List.cons_append, List.dropWhile_cons, if_pos hx] at hm
        have hlen := congrArg List.length hm
        have hle : ((cs ++ t).dropWhile isWs).length ≤ (cs ++ t).length :=
          (List.dropWhile_sublist _).length_le
        rw [List.length_cons] at hlen
        omega
    simp [List.dropWhile_cons, hc]

theorem pyStrip_idem (l : List Char) : pyStrip (pyStrip l) = pyStrip l := by
  unfold pyStrip
  rw [dropWhile_dropEndWs _ (dropWhile_idem isWs l), dropEndWs_idem]

theorem pyStrip_mem (l : List Char) (c : Char) (hc : c ∈ pyStrip l) : c ∈ l := by
  unfold pyStrip at hc
  have h1 : c ∈ l.dropWhile isWs :=
    (dropEndWs_isPre (l.dropWhile isWs)).sublist.subset hc
  exact (List.dropWhile_suffix isWs).sublist.subset h1

/-- C4 counterexample: removing a disallowed character can merge two
whitespace runs after collapsing, so `clean_text` is not idempotent:
"a @ b" cleans to "a  b" (two spaces), which cleans again to "a b". -/
theorem clean_text_idem_cex :
    clean_text ("a @ b").data = ("a  b").data ∧
    clean_text (clean_text ("a @ b").data) = ("a b").data ∧
    clean_text (clean_text ("a @ b").data) ≠ clean_text ("a @ b").data :=
  ⟨by decide, by decide, by decide⟩

/-- C4 amended: the normalizer is idempotent on every input whose characters
all lie in the kept class `\w\s.,!?;:\-()` (so the character-removal pass is
inert); on such inputs a second application changes nothing.  (On general
inputs idempotence fails: see the counterexample.) -/
theorem clean_text_idem_on_allowed (x : List Char)
    (h : ∀ c ∈ x, isAllowed c = true) :
    clean_text (clean_text x) = clean_text x := by
  have hx : clean_text x = pyStrip (collapseWs x) := by
    unfold clean_text collapseWs
    rw [List.filter_eq_self.mpr (collapse_allowed x h false)]
  rw [hx]
  set y := pyStrip (collapseWs x) with hy
  have hmy : ∀ c ∈ y, c ∈ collapseAux false x := fun c hc =>
    pyStrip_mem (collapseWs x) c hc
  have hall : ∀ c ∈ y, isAllowed c = true := fun c hc =>
    collapse_allowed x h false c (hmy c hc)
  have hsp : ∀ c ∈ y, isWs c = true → c = ' ' := fun c hc hw =>
    collapseAux_ws_is_space x false c (hmy c hc) hw
  have hch : y.Chain' (fun a b => ¬(isWs a = true ∧ isWs b = true)) := by
    have h0 := (collapseAux_chain x false).2
    have h1 := h0.suffix (List.dropWhile_suffix isWs)
    exact h1.prefix (dropEndWs_isPre _)
  have hcoll : collapseWs y = y :=
    collapseAux_fixed y hsp hch false (fun hcontra => by cases hcontra)
  calc clean_text y = pyStrip ((collapseWs y).filter isAllowed) := rfl
    _ = pyStrip (y.filter isAllowed) := by rw [hcoll]
    _ = pyStrip y := by rw [List.filter_eq_self.mpr hall]
    _ = y := by rw [hy]; exact pyStrip_idem _

/-- Witness for C4 amended on an allowed-only input with messy whitespace. -/
theorem clean_text_idem_on_allowed_witness :
    (∀ c ∈ ("  a  bc, d!  ").data, isAllowed c = true) ∧
    clean_text (clean_text ("  a  bc, d!  ").data) =
      clean_text ("  a  bc, d!  ").data :=
  ⟨by decide, clean_text_idem_on_allowed _ (by decide)⟩

/-- Witness for C10 on a two-space input. -/
theorem empty_input_empty_summary_witness :
    (1 ≤ 3 ∧ 1 ≤ 7 ∧ ∀ c ∈ ("  ").data, isWs c = true) ∧
    extractive_summarize ("  ").data 3 = [] ∧
    simple_abstractive_summarize ("  ").data 7 = [] := by
  have h := empty_input_empty_summary ("  ").data 3 7 (by decide) (by decide)
    (by decide)
  exact ⟨⟨by decide, by decide, by decide⟩, h.1, h.2⟩

/-! ## C6: how many sentences the extractive summarizer returns -/

theorem contains_iff_mem_lc (l : List (List Char)) (a : List Char) :
    l.contains a = true ↔ a ∈ l := by
  induction l with
  | nil => simp
  | cons x xs ih =>
    rw [List.contains_cons]
    simp only [Bool.or_eq_true, beq_iff_eq, ih, List.mem_cons]

theorem upsert_key_prop (k : List Char) (v : ℚ) (d : List (List Char × ℚ))
    (P : List Char → Prop) (hd : ∀ p ∈ d, P p.1) (hk : P k) :
    ∀ p ∈ upsert k v d, P p.1 := by
  induction d with
  | nil =>
    intro p hp
    rw [upsert, List.mem_singleton] at hp
    subst hp
    exact hk
  | cons x xs ih =>
    obtain ⟨k', v'⟩ := x
    intro p hp
    rw [upsert] at hp
    by_cases he : k' = k
    · rw [if_pos he] at hp
      rcases List.mem_cons.mp hp with rfl | h
      · subst he
        exact hk
      · exact hd p (by simp [h])
    · rw [if_neg he] at hp
      rcases List.mem_cons.mp hp with rfl | h
      · exact hd (k', v') (by simp)
      · exact ih (fun p' hp' => hd p' (by simp [hp'])) p h

theorem upsert_keys (k : List Char) (v : ℚ) (d : List (List Char × ℚ)) :
    (upsert k v d).map Prod.fst =
      if k ∈ d.map Prod.fst then d.map Prod.fst
      else d.map Prod.fst ++ [k] := by
  induction d with
  | nil => simp [upsert]
  | cons p ps ih =>
    obtain ⟨k', v'⟩ := p
    rw [upsert]
    by_cases he : k' = k
    · subst he
      simp
    · rw [if_neg he]
      have hne2 : ¬ k = k' := fun h => he h.symm
      simp only [List.map_cons, ih]
      by_cases hm : k ∈ ps.map Prod.fst
      · rw [if_pos hm, if_pos (by simp [hm])]
      · rw [if_neg hm, if_neg (by simp [hm, hne2]), List.cons_append]

theorem upsert_length (k : List Char) (v : ℚ) (d : List (List Char × ℚ)) :
    (upsert k v d).length =
      if k ∈ d.map Prod.fst then d.length else d.length + 1 := by
  induction d with
  | nil => simp [upsert]
  | cons p ps ih =>
    obtain ⟨k', v'⟩ := p
    rw [upsert]
    by_cases he : k' = k
    · subst he
      simp
    · rw [if_neg he]
      have hne2 : ¬ k = k' := fun h => he h.symm
      simp only [List.length_cons, ih]
      by_cases hm : k ∈ ps.map Prod.fst
      · rw [if_pos hm, if_pos (by simp [hm])]
      · rw [if_neg hm, if_neg (by simp [hm, hne2])]

theorem contrib_pos_of_scoreOf (freq : List Char → Nat) (i n : Nat)
    (s : List Char) (q : ℚ) (h : scoreOf freq i n s = some q) :
    0 < contribCount freq s := by
  unfold scoreOf at h
  split at h
  · cases h
  · next hc => omega

theorem scoresAux_key_prop (freq : List Char → Nat) (n : Nat)
    (P : List Char → Prop) :
    ∀ (ss : List (List Char)) (i : Nat) (d : List (List Char × ℚ)),
      (∀ p ∈ d, P p.1) → (∀ s ∈ ss, 0 < contribCount freq s → P s) →
      ∀ p ∈ scoresAux freq n i ss d, P p.1 := by
  intro ss
  induction ss with
  | nil =>
    intro i d hd _ p hp
    exact hd p hp
  | cons s ss' ih =>
    intro i d hd hss p hp
    rw [scoresAux] at hp
    cases hopt : scoreOf freq i n s with
    | none =>
      rw [hopt] at hp
      exact ih (i + 1) d hd (fun t ht hc => hss t (by simp [ht]) hc) p hp
    | some q =>
      rw [hopt] at hp
      refine ih (i + 1) (upsert s q d) ?_
        (fun t ht hc => hss t (by simp [ht]) hc) p hp
      exact upsert_key_prop s q d P hd
        (hss s (by simp) (contrib_pos_of_scoreOf freq i n s q hopt))

theorem scoresAux_len_nodup (freq : List Char → Nat) (n : Nat) :
    ∀ (ss : List (List Char)) (i : Nat) (d : List (List Char × ℚ)),
      ss.Nodup → (∀ s ∈ ss, s ∉ d.map Prod.fst) → (d.map Prod.fst).Nodup →
      (scoresAux freq n i ss d).length =
        d.length +
          (ss.filter (fun s => decide (0 < contribCount freq s))).length ∧
      ((scoresAux freq n i ss d).map Prod.fst).Nodup := by
  intro ss
  induction ss with
  | nil =>
    intro i d _ _ hkeys
    simp [scoresAux, hkeys]
  | cons s ss' ih =>
    intro i d hnd hdisj hkeys
    have hndtail := (List.nodup_cons.mp hnd).2
    have hsnotin := (List.nodup_cons.mp hnd).1
    rw [scoresAux]
    cases hopt : scoreOf freq i n s with
    | none =>
      have hc0 : contribCount freq s = 0 := by
        unfold scoreOf at hopt
        split at hopt
        · next h => exact h
        · cases hopt
      obtain ⟨ihl, ihn⟩ := ih (i + 1) d hndtail
        (fun t ht => hdisj t (by simp [ht])) hkeys
      simp only [Option.elim]
      refine ⟨?_, ihn⟩
      rw [ihl, List.filter_cons, if_neg (by simp [hc0])]
    | some q =>
      have hcpos : 0 < contribCount freq s :=
        contrib_pos_of_scoreOf freq i n s q hopt
      have hsnot : s ∉ d.map Prod.fst := hdisj s (by simp)
      have hkeq : (upsert s q d).map Prod.fst = d.map Prod.fst ++ [s] := by
        rw [upsert_keys, if_neg hsnot]
      have hlen2 : (upsert s q d).length = d.length + 1 := by
        rw [upsert_length, if_neg hsnot]
      have hkeys2 : ((upsert s q d).map Prod.fst).Nodup := by
        rw [hkeq, List.nodup_append]
        exact ⟨hkeys, List.nodup_singleton s,
          fun a ha hb => by simp at hb; subst hb; exact hsnot ha⟩
      have hdisj2 : ∀ t ∈ ss', t ∉ (upsert s q d).map Prod.fst := by
        intro t ht
        rw [hkeq]
        simp only [List.mem_append, List.mem_singleton]
        rintro (h | rfl)
        · exact hdisj t (by simp [ht]) h
        · exact hsnotin ht
      obtain ⟨ihl, ihn⟩ := ih (i + 1) (upsert s q d) hndtail hdisj2 hkeys2
      simp only [Option.elim]
      refine ⟨?_, ihn⟩
      rw [ihl, hlen2, List.filter_cons, if_pos (by simp [hcpos])]
      simp only [List.length_cons]
      omega

/-- C6 counterexample: this two-sentence document tokenizes into more
sentences than the requested count 1, yet the summarizer returns the empty
string (zero sentences, not exactly one): every word of every sentence is a
stopword or too short, so no sentence has a positive qualifying-token count
and `sentence_scores` is empty. -/
theorem extractive_topk_cex :
    1 < (simple_sent_tokenize (clean_text
      ("He is on it as we do. Be at it so he is now.").data)).length ∧
    extractiveSelected ("He is on it as we do. Be at it so he is now.").data
      1 = [] ∧
    extractive_summarize ("He is on it as we do. Be at it so he is now.").data
      1 = [] :=
  ⟨by decide, by decide, by decide⟩

/-- C6 amended: if the document tokenizes into strictly more sentences than
`sentence_count`, the tokenized sentences are pairwise distinct, and at
least `sentence_count` of them have a positive qualifying-token count, then
`summarize_extractive` selects exactly `sentence_count` sentences, in
ascending original-position order, each with a positive qualifying-token
count.  (Without distinctness a selected duplicated sentence is emitted once
per occurrence; with fewer scorable sentences the output is shorter — see
the counterexample.) -/
theorem extractive_topk_amended (text : List Char) (n : Nat)
    (hn : n < (simple_sent_tokenize (clean_text text)).length)
    (hnd : (simple_sent_tokenize (clean_text text)).Nodup)
    (henough : n ≤ ((simple_sent_tokenize (clean_text text)).filter
      (fun s => decide (0 < contribCount (wordFreq (get_stopwords none)
        (simple_sent_tokenize (clean_text text))) s))).length) :
    (extractiveSelected text n).length = n ∧
    (extractiveSelected text n).Sublist
      (simple_sent_tokenize (clean_text text)) ∧
    ∀ s ∈ extractiveSelected text n,
      0 < contribCount (wordFreq (get_stopwords none)
        (simple_sent_tokenize (clean_text text))) s := by
  set sentences := simple_sent_tokenize (clean_text text) with hsent
  set freq := wordFreq (get_stopwords none) sentences with hfreq
  set dict := sentenceDict (get_stopwords none) sentences with hdict
  have hdict2 : dict = scoresAux freq sentences.length 0 sentences [] := rfl
  obtain ⟨hdlen, hdnodup⟩ := scoresAux_len_nodup freq sentences.length
    sentences 0 [] hnd (by simp) (by simp)
  rw [← hdict2] at hdlen hdnodup
  have hdprop : ∀ p ∈ dict, p.1 ∈ sentences ∧ 0 < contribCount freq p.1 := by
    rw [hdict2]
    exact scoresAux_key_prop freq sentences.length
      (fun t => t ∈ sentences ∧ 0 < contribCount freq t) sentences 0 []
      (by simp) (fun s hs hc => ⟨hs, hc⟩)
  have hperm := sortDescBy_perm (fun a b => decide (a.2 < b.2)) dict
  set sorted := sortDescBy (fun a b => decide (a.2 < b.2)) dict with hsorted
  have hsortlen : sorted.length = dict.length := hperm.length_eq
  have hsortkeys : (sorted.map Prod.fst).Nodup :=
    (hperm.map Prod.fst).nodup_iff.mpr hdnodup
  set top := topSentences n dict with htop
  have htop2 : top = (sorted.take n).map Prod.fst := rfl
  have htoplen : top.length = n := by
    rw [htop2, List.length_map, List.length_take]
    simp at hdlen
    omega
  have htopnodup : top.Nodup := by
    rw [htop2]
    exact List.Nodup.sublist (List.Sublist.map Prod.fst
      (List.take_sublist n sorted)) hsortkeys
  have htopprop : ∀ s ∈ top, s ∈ sentences ∧ 0 < contribCount freq s := by
    intro s hs
    rw [htop2] at hs
    rcases List.mem_map.mp hs with ⟨p, hp, rfl⟩
    have hp2 : p ∈ sorted := (List.take_sublist n sorted).subset hp
    exact hdprop p (hperm.mem_iff.mp hp2)
  have hself : extractiveSelected text n =
      sentences.filter (fun s => top.contains s) := by
    simp only [extractiveSelected, ← hsent, ← hdict, ← htop]
    rw [if_neg (by omega)]
  have hmemsel : ∀ s, s ∈ sentences.filter (fun s => top.contains s) ↔
      s ∈ top := by
    intro s
    rw [List.mem_filter]
    constructor
    · intro ⟨_, h2⟩
      exact (contains_iff_mem_lc top s).mp h2
    · intro h
      exact ⟨(htopprop s h).1, (contains_iff_mem_lc top s).mpr h⟩
  have hselnodup : (sentences.filter (fun s => top.contains s)).Nodup :=
    List.Nodup.filter _ hnd
  have hpermsel : (sentences.filter (fun s => top.contains s)).Perm top :=
    (List.perm_ext_iff_of_nodup hselnodup htopnodup).mpr hmemsel
  refine ⟨?_, ?_, ?_⟩
  · rw [hself, hpermsel.length_eq, htoplen]
  · rw [hself]
    exact List.filter_sublist _
  · intro s hs
    rw [hself] at hs
    exact (htopprop s ((hmemsel s).mp hs)).2

/-- Witness for C6 amended: a two-sentence document with distinct sentences
that both score, requesting one sentence. -/
theorem extractive_topk_amended_witness :
    (1 < (simple_sent_tokenize (clean_text
        ("Apple banana cherry here. Dog elephant fox grape here.").data)).length ∧
      (simple_sent_tokenize (clean_text
        ("Apple banana cherry here. Dog elephant fox grape here.").data)).Nodup ∧
      1 ≤ ((simple_sent_tokenize (clean_text
          ("Apple banana cherry here. Dog elephant fox grape here.").data)).filter
        (fun s => decide (0 < contribCount (wordFreq (get_stopwords none)
          (simple_sent_tokenize (clean_text
            ("Apple banana cherry here. Dog elephant fox grape here.").data))) s))).length) ∧
    (extractiveSelected
      ("Apple banana cherry here. Dog elephant fox grape here.").data 1).length
      = 1 :=
  ⟨⟨by decide, by decide, by decide⟩,
   (extractive_topk_amended
      ("Apple banana cherry here. Dog elephant fox grape here.").data 1
      (by decide) (by decide) (by decide)).1⟩

end Summarify
